import Mathlib

set_option autoImplicit false

/-!
Verification of the MyReact rendering engine (src/lib/MyReactImpl.ts).

The development shallowly embeds the engine: JavaScript values that the code
inspects (children, attribute values) become inductive types, the mutable
fiber fields become record fields whose post-state the embedded functions
return, and DOM handles are natural numbers standing for node identity.
-/

namespace MyReact

/-- Element kind: a host tag string, or a component function (identified by a
numeric reference id, since JS compares functions by reference). The sentinel
text kind of the source is the tag string TEXT_ELEMENT. -/
inductive EType where
  | tag : String → EType
  | comp : Nat → EType
deriving DecidableEq

/-- Attribute values as the engine observes them: primitives by value,
functions and generic objects by reference identity (a numeric id), and the
JS undefined value. -/
inductive AttrV where
  | vstr : String → AttrV
  | vint : Int → AttrV
  | vbool : Bool → AttrV
  | vfn : Nat → AttrV
  | vobj : Nat → AttrV
  | vundefined : AttrV
deriving DecidableEq

/-- A props object minus its reserved children key. -/
abbrev Attrs := List (String × AttrV)

/-- A JS value occurring in a children list: an element, an array, or a
primitive. Mirrors what can reach createElement and reconcileChildren. -/
inductive Child where
  | elemC : EType → Attrs → List Child → Child
  | arrC : List Child → Child
  | strC : String → Child
  | numC : Int → Child
  | boolC : Bool → Child
  | fnC : Nat → Child
  | nullC : Child
  | undefC : Child

/-- The JS test typeof child === "object": true for objects, arrays and null. -/
def typeofObject : Child → Bool
  | .elemC _ _ _ => true
  | .arrC _ => true
  | .nullC => true
  | _ => false

/-- Whether a child value is an actual Element. -/
def isElem : Child → Bool
  | .elemC _ _ _ => true
  | _ => false

/-- JS truthiness of a child value. -/
def isTruthy : Child → Bool
  | .elemC _ _ _ => true
  | .arrC _ => true
  | .strC s => s != ""
  | .numC n => n != 0
  | .boolC b => b
  | .fnC _ => true
  | .nullC => false
  | .undefC => false

/-- The literal carried into the synthetic text element, as the source stores
it under nodeValue. -/
def litOf : Child → AttrV
  | .strC s => .vstr s
  | .numC n => .vint n
  | .boolC b => .vbool b
  | .fnC n => .vfn n
  | _ => .vundefined

/-- Source createTextElement: a TEXT_ELEMENT node with the literal under
nodeValue and no children. -/
def createTextElement (c : Child) : Child :=
  .elemC (.tag "TEXT_ELEMENT") [("nodeValue", litOf c)] []

/-- JS Array.prototype.flat with its default depth of one, as used by the
source in children.flat(). -/
def jsFlat : List Child → List Child
  | [] => []
  | .arrC ys :: rest => ys ++ jsFlat rest
  | c :: rest => c :: jsFlat rest

/-- Source createElement: flatten the children one level and wrap each child
whose typeof is not object into a synthetic text element. The spread with a
children override makes any incoming children key irrelevant, which the
filter models. -/
def createElement (t : EType) (attrs : Attrs) (children : List Child) : Child :=
  .elemC t (attrs.filter fun p => p.1 != "children")
    ((jsFlat children).map fun c => if typeofObject c then c else createTextElement c)

/-- Child list of an element value (empty for non-elements, which have no
children property). -/
def childrenOf : Child → List Child
  | .elemC _ _ cs => cs
  | _ => []

/-- The type property of a child value; undefined for non-elements. -/
def typeOfChild : Child → Option EType
  | .elemC t _ _ => some t
  | _ => none

/-- The attrs part of the props of a child value; empty for non-elements. -/
def attrsOf : Child → Attrs
  | .elemC _ a _ => a
  | _ => []

/-! ## Fibers and the reconciler -/

/-- Fiber effect tags. -/
inductive Tag where
  | placement
  | update
  | deletion
deriving DecidableEq

/-- The props object of an element child: its plain attributes and its
children list; undefined for non-element values. -/
def elemProps : Child → Option (Attrs × List Child)
  | .elemC _ a cs => some (a, cs)
  | _ => none

/-- A fiber of the current (committed) tree as reconcileChildren observes it:
kind, props, host-node handle (a numeric identity) and effect tag. The
sibling chain is represented by the enclosing list. -/
structure OldFiber where
  type : Option EType
  props : Attrs × List Child
  dom : Option Nat
  effectTag : Option Tag

/-- A fiber emitted by reconcileChildren for the work-in-progress tree. -/
structure NewFiber where
  type : Option EType
  props : Option (Attrs × List Child)
  dom : Option Nat
  alternate : Option OldFiber
  effectTag : Tag

/-- Source line 277: sameType is oldFiber and element and
element.type === oldFiber.type, with JS truthiness on element and reference
or value identity on the kinds (undefined on both sides also compares
equal, as in JS). -/
def sameType (o : Option OldFiber) (e : Option Child) : Bool :=
  match o, e with
  | some of, some el => isTruthy el && decide (typeOfChild el = of.type)
  | _, _ => false

/-- The UPDATE fiber of lines 281 to 288: kind from the old fiber, the new
props, the old host node, alternate linked to the old fiber. -/
def mkUpdateFiber (el : Child) (of : OldFiber) : NewFiber :=
  { type := of.type
    props := elemProps el
    dom := of.dom
    alternate := some of
    effectTag := Tag.update }

/-- The PLACEMENT fiber of lines 292 to 299: kind and props from the element,
no host node, no alternate. -/
def mkPlacementFiber (el : Child) : NewFiber :=
  { type := typeOfChild el
    props := elemProps el
    dom := none
    alternate := none
    effectTag := Tag.placement }

/-- The in-place write of line 303: oldFiber.effectTag = DELETION. -/
def deleteTag (of : OldFiber) : OldFiber :=
  { of with effectTag := some Tag.deletion }

/-- An old fiber with its effect tag cleared; used to state which fields of
the current tree reconciliation leaves untouched. -/
def eraseTag (of : OldFiber) : OldFiber :=
  { of with effectTag := none }

/-- A sample committed-tree fiber used in concrete witnesses. -/
def oldDiv4 : OldFiber :=
  { type := some (EType.tag "div"), props := ([], []), dom := some 4,
    effectTag := none }

/-- One iteration of the while loop of lines 273 to 319, at the current
element (elements[index], none when the index is past the end) and the
current old fiber. Returns the emitted new fiber if any, the fiber pushed to
the deletions list if any, and the post-state of the old fiber. -/
def reconcileStep (e : Option Child) (o : Option OldFiber) :
    Option NewFiber × Option OldFiber × Option OldFiber :=
  let st := sameType o e
  let nf : Option NewFiber :=
    match e, o with
    | some el, some of =>
      if st then some (mkUpdateFiber el of)
      else if isTruthy el then some (mkPlacementFiber el) else none
    | some el, none => if isTruthy el then some (mkPlacementFiber el) else none
    | none, _ => none
  let del : Option OldFiber :=
    match o with
    | some of => if st then none else some (deleteTag of)
    | none => none
  let oldAfter : Option OldFiber :=
    match o with
    | some of => some (if st then of else deleteTag of)
    | none => none
  (nf, del, oldAfter)

/-- The whole while loop: walk the element list and the old sibling chain in
lock-step, one reconcileStep per iteration, until both are exhausted.
Returns the per-iteration emissions, the deletions in push order, and the
post-state of the old chain. -/
def reconcileRest : List OldFiber →
    List (Option NewFiber) × List OldFiber × List OldFiber
  | [] => ([], [], [])
  | o :: os =>
    let s := reconcileStep none (some o)
    let r := reconcileRest os
    (s.1 :: r.1, s.2.1.toList ++ r.2.1, s.2.2.toList ++ r.2.2)

/-- See the doc comment below; the element list drives the recursion, with
reconcileRest finishing the old chain once the elements are exhausted. -/
def reconcileLoop : List Child → List OldFiber →
    List (Option NewFiber) × List OldFiber × List OldFiber
  | [], olds => reconcileRest olds
  | e :: es, olds =>
    let s := reconcileStep (some e) olds.head?
    let r := reconcileLoop es olds.tail
    (s.1 :: r.1, s.2.1.toList ++ r.2.1, s.2.2.toList ++ r.2.2)

/-- The child and sibling linking of lines 311 to 317: the chain reachable
from wipFiber.child consists of the emitted fibers of the longest prefix of
iterations that produced one; as soon as an iteration produces none,
prevSibling becomes null and later fibers are never attached. -/
def linkChain : List (Option NewFiber) → List NewFiber
  | [] => []
  | none :: _ => []
  | some f :: rest => f :: linkChain rest

/-- The observable outcome of reconcileChildren. -/
structure ReconcileResult where
  childChain : List NewFiber
  deletions : List OldFiber
  oldAfter : List OldFiber

/-- Source reconcileChildren (lines 268 to 320), at the level of the element
list and the old child chain of wipFiber.alternate. -/
def reconcileChildren (es : List Child) (olds : List OldFiber) : ReconcileResult :=
  let r := reconcileLoop es olds
  ⟨linkChain r.1, r.2.1, r.2.2⟩

/-! Claimed reconciler (C1): a transcription of the claim text, indexing both
sequences and terminating exactly when both are exhausted. -/

/-- Per the claim, the fiber emitted at an index: update when an old fiber
and a new element both exist with identical kinds, placement when a new
element exists without a same-type old fiber, nothing when no element is
left. -/
def claimNF (es : List Child) (olds : List OldFiber) (i : Nat) : Option NewFiber :=
  match es[i]? with
  | none => none
  | some e =>
    match olds[i]? with
    | some o =>
      some (if typeOfChild e = o.type then mkUpdateFiber e o else mkPlacementFiber e)
    | none => some (mkPlacementFiber e)

/-- Per the claim, the deletion recorded at an index: the old fiber, tagged,
when it exists without a same-type new element. -/
def claimDel (es : List Child) (olds : List OldFiber) (i : Nat) : Option OldFiber :=
  match olds[i]? with
  | none => none
  | some o =>
    match es[i]? with
    | some e => if typeOfChild e = o.type then none else some (deleteTag o)
    | none => some (deleteTag o)

/-- Per the claim, the post-state of the old fiber at an index: tagged
deletion exactly when it exists without a same-type new element. -/
def claimOldAfter (es : List Child) (olds : List OldFiber) (i : Nat) : Option OldFiber :=
  match olds[i]? with
  | none => none
  | some o =>
    match es[i]? with
    | some e => some (if typeOfChild e = o.type then o else deleteTag o)
    | none => some (deleteTag o)

/-- The reconciliation outcome the claim describes: a lock-step walk by index
over exactly max length indices. -/
def reconcileClaimed (es : List Child) (olds : List OldFiber) : ReconcileResult :=
  let n := max es.length olds.length
  { childChain := (List.range n).filterMap (claimNF es olds)
    deletions := (List.range n).filterMap (claimDel es olds)
    oldAfter := (List.range n).filterMap (claimOldAfter es olds) }


/-! ## Host attribute diffing (updateDom) -/

/-- A single host-tree mutation issued by updateDom, in source order:
listener removal, property clearing, property assignment or style merge,
listener addition. -/
inductive HostOp where
  | removeListener : String → AttrV → HostOp
  | clearProp : String → HostOp
  | setProp : String → AttrV → HostOp
  | mergeStyle : AttrV → HostOp
  | addListener : String → AttrV → HostOp
deriving DecidableEq

/-- Source isEvent: the key starts with on. -/
def isEvent (k : String) : Bool := k.startsWith "on"

/-- Source isProperty: not the children key and not an event key. -/
def isProperty (k : String) : Bool := !(k == "children") && !isEvent k

/-- JS property read props[key], with absent keys reading as undefined. -/
def jsGet (l : Attrs) (k : String) : AttrV := (l.lookup k).getD AttrV.vundefined

/-- JS key-in-object test. -/
def hasKey (l : Attrs) (k : String) : Bool := (l.lookup k).isSome

/-- Source isNew: prev[key] !== next[key]. -/
def isNewKey (p n : Attrs) (k : String) : Bool := jsGet p k != jsGet n k

/-- Source isGone: not (key in next). -/
def isGoneKey (n : Attrs) (k : String) : Bool := !(hasKey n k)

/-- Source event name: name.toLowerCase().substring(2). -/
def eventType (k : String) : String := (k.toLower).drop 2

/-- Object.keys of a props object. -/
def keys (l : Attrs) : List String := l.map Prod.fst

/-- typeof v === "object" for attribute values. -/
def typeofObjectA : AttrV → Bool
  | .vobj _ => true
  | _ => false

/-- Source updateDom (lines 68 to 107): remove stale listeners, clear gone
properties, set new or changed properties (merging style objects), add new
or changed listeners. Returned as the ordered list of host mutations. -/
def updateDom (prev next : Attrs) : List HostOp :=
  (((keys prev).filter isEvent).filter
      (fun k => !(hasKey next k) || isNewKey prev next k)).map
    (fun k => HostOp.removeListener (eventType k) (jsGet prev k))
  ++ (((keys prev).filter isProperty).filter (isGoneKey next)).map HostOp.clearProp
  ++ (((keys next).filter isProperty).filter (isNewKey prev next)).map
    (fun k =>
      if k == "style" && typeofObjectA (jsGet next k) then HostOp.mergeStyle (jsGet next k)
      else HostOp.setProp k (jsGet next k))
  ++ (((keys next).filter isEvent).filter (isNewKey prev next)).map
    (fun k => HostOp.addListener (eventType k) (jsGet next k))

/-! ## Commit-phase deletion -/

/-- A committed fiber tree for the deletion walk: the optional host-node
handle and the child fibers (the head of the list is fiber.child, the tail
the sibling chain reached through child.sibling). -/
inductive FiberT where
  | node : Option Nat → List FiberT → FiberT

/-- Source commitDeletion (lines 148 to 157): if the fiber owns a host node,
remove it from the host parent; otherwise recurse into fiber.child only.
Returns the handles removed from the host parent, in order. -/
def commitDeletion : FiberT → List Nat
  | .node (some d) _ => [d]
  | .node none [] => []
  | .node none (c :: _) => commitDeletion c

mutual

/-- The set of nearest host descendants the claim describes: the own host
node if present, otherwise the nearest hosts of all children. -/
def nearestHosts : FiberT → List Nat
  | .node (some d) _ => [d]
  | .node none cs => nearestHostsList cs

/-- Nearest hosts of a list of sibling fibers, in order. -/
def nearestHostsList : List FiberT → List Nat
  | [] => []
  | c :: cs => nearestHosts c ++ nearestHostsList cs

end

/-! ## Hooks -/

/-- A pending state update: either a function of the previous value or a
plain replacement value; the source discriminates with
typeof action === "function". -/
inductive JSAction (V : Type) where
  | fnAct : (V → V) → JSAction V
  | valAct : V → JSAction V

/-- Applying one queued action to the current hook state (line 338). -/
def applyAction {V : Type} (s : V) : JSAction V → V
  | .fnAct f => f s
  | .valAct v => v

/-- A state hook record: current value and pending-update queue. -/
structure StateHook (V : Type) where
  state : V
  queue : List (JSAction V)

/-- Source useState value computation (lines 330 to 339): seed the value
from the same-position old hook if one exists, else from the initial value,
then drain the old hook queue in order, replacing or transforming the
value. -/
def useStateValue {V : Type} (oldHook : Option (StateHook V)) (initial : V) : V :=
  let s0 := match oldHook with
    | some h => h.state
    | none => initial
  let actions := match oldHook with
    | some h => h.queue
    | none => []
  actions.foldl applyAction s0

/-- Repeated hook.queue.push calls, one per setter invocation. -/
def pushAll {V : Type} (q : List (JSAction V)) : List (JSAction V) → List (JSAction V)
  | [] => q
  | a :: rest => pushAll (q ++ [a]) rest

/-- Source hasDepsChanged inner loop:
nextDeps.some((dep, index) => dep !== prevDeps[index]), walking the new
dependency list with its index. -/
def depsSomeDiffer {D : Type} [DecidableEq D] (p : List D) : List D → Nat → Bool
  | [], _ => false
  | d :: rest, i => decide (p[i]? ≠ some d) || depsSomeDiffer p rest (i + 1)

/-- Source hasDepsChanged (lines 380 to 384): true when either dependency
list is absent, when the lengths differ, or when some element differs at the
same index. -/
def hasDepsChanged {D : Type} [DecidableEq D] (prevDeps nextDeps : Option (List D)) :
    Bool :=
  match prevDeps, nextDeps with
  | none, _ => true
  | _, none => true
  | some p, some n => if p.length ≠ n.length then true else depsSomeDiffer p n 0

/-- The changed condition exactly as the claim words it: no previous
snapshot, differing lengths, or an element differing at some index. -/
def DepsChangedClaimOnly {D : Type} (prev next : Option (List D)) : Prop :=
  prev = none ∨
    ∃ p n, prev = some p ∧ next = some n ∧
      (p.length ≠ n.length ∨ ∃ (i : Nat) (d : D), n[i]? = some d ∧ p[i]? ≠ some d)

/-- The amended changed condition: as claimed, plus the case the claim
misses, a missing new dependency list. -/
def DepsChangedAmended {D : Type} (prev next : Option (List D)) : Prop :=
  prev = none ∨ next = none ∨
    ∃ p n, prev = some p ∧ next = some n ∧
      (p.length ≠ n.length ∨ ∃ (i : Nat) (d : D), n[i]? = some d ∧ p[i]? ≠ some d)

/-- An effect hook record as commitEffectHooks sees it: callback and cleanup
handles are function references (numeric ids). -/
structure EffectHook (D : Type) where
  callback : Option Nat
  deps : Option (List D)
  cancel : Option Nat
  hasChanged : Bool

/-- An observable invocation made while committing effect hooks. -/
inductive EffEvent where
  | cleanupRun : Nat → EffEvent
  | callbackRun : Nat → EffEvent
deriving DecidableEq

/-- Source commitEffectHooks per-hook body (lines 165 to 176): when the hook
changed, run the previous cleanup if present, then the callback, storing its
return value (supplied by callRet) as the new cleanup. Returns the invocation
events in order and the hook post-state. -/
def runEffectHook {D : Type} (callRet : Nat → Option Nat) (h : EffectHook D) :
    List EffEvent × EffectHook D :=
  if h.hasChanged then
    ((match h.cancel with
        | some c => [EffEvent.cleanupRun c]
        | none => [])
      ++ (match h.callback with
        | some cb => [EffEvent.callbackRun cb]
        | none => []),
      match h.callback with
      | some cb => { h with cancel := callRet cb }
      | none => h)
  else ([], h)

/-! ## Work loop and scheduling -/

/-- The scheduler globals the work loop touches: nextUnitOfWork, wipRoot and
currentRoot, over an abstract fiber type. -/
structure SchedState (F : Type) where
  nextUnit : Option F
  wipRoot : Option F
  currentRoot : Option F

/-- The while loop of lines 203 to 207, parametric in performUnitOfWork
(step). The list ys holds the successive values of
deadline.timeRemaining() < 1, one read after each processed unit; the run is
cut short if the modeled reads run out. Returns the processed units in order
and the final nextUnitOfWork. -/
def workLoopAux {F : Type} (step : F → Option F) :
    Option F → List Bool → List F × Option F
  | none, _ => ([], none)
  | some u, [] => ([], some u)
  | some u, y :: ys =>
    if y then ([u], step u)
    else
      let r := workLoopAux step (step u) ys
      (u :: r.1, r.2)

/-- The commit swap of lines 119 to 120: currentRoot = wipRoot;
wipRoot = null. -/
def commitRootSwap {F : Type} (s : SchedState F) : SchedState F :=
  { s with currentRoot := s.wipRoot, wipRoot := none }

/-- Source workLoop (lines 202 to 214) for one idle callback: run the while
loop, then commit exactly when no next unit remains and a WIP root exists.
Returns the new state, the processed units, and whether a commit happened. -/
def workLoop {F : Type} (step : F → Option F) (ys : List Bool) (s : SchedState F) :
    SchedState F × List F × Bool :=
  let r := workLoopAux step s.nextUnit ys
  let s1 : SchedState F := { s with nextUnit := r.2 }
  if r.2.isNone && s1.wipRoot.isSome then (commitRootSwap s1, r.1, true)
  else (s1, r.1, false)

/-- n applications of step, through Option. -/
def iterStep {F : Type} (step : F → Option F) : Nat → Option F → Option F
  | 0, u => u
  | n + 1, u => iterStep step n (u.bind step)

/-- The first n units of the uninterrupted step chain from u. -/
def chainList {F : Type} (step : F → Option F) : Nat → Option F → List F
  | 0, _ => []
  | _ + 1, none => []
  | n + 1, some u => u :: chainList step n (step u)

/-! ## State setter scheduling (setState) -/

/-- The committed root fiber as setState reads it. -/
structure RootFiber where
  dom : Option Nat
  props : Attrs × List Child

/-- The fresh WIP root setState builds. -/
structure WipRoot where
  dom : Option Nat
  props : Attrs × List Child
  alternate : Option RootFiber

/-- The engine globals setState touches, plus the queue of the hook the
setter closed over. -/
structure EngineState (V : Type) where
  currentRoot : Option RootFiber
  wipRoot : Option WipRoot
  nextUnit : Option WipRoot
  deletions : List OldFiber
  hookQueue : List (JSAction V)

/-- Source setState (lines 341 to 353): push the action onto the hook queue;
then, if a committed root exists, build a fresh WIP root aliasing its dom
and props with alternate pointing at it, point nextUnitOfWork at it, and
reset the deletions list. -/
def setState {V : Type} (a : JSAction V) (s : EngineState V) : EngineState V :=
  let s2 : EngineState V := { s with hookQueue := s.hookQueue ++ [a] }
  match s.currentRoot with
  | some c =>
    let w : WipRoot := { dom := c.dom, props := c.props, alternate := some c }
    { s2 with wipRoot := some w, nextUnit := some w, deletions := [] }
  | none => s2

/-- Source updateFunctionComponent children (lines 257 to 258): the
component return value wrapped in a one-element array, then flattened one
level. -/
def componentChildren (out : Child) : List Child := jsFlat [out]

/-- A sample engine state with a committed root, used in witnesses. -/
def engine0 : EngineState Nat :=
  { currentRoot := some { dom := some 0, props := ([], []) }
    wipRoot := none
    nextUnit := none
    deletions := [oldDiv4]
    hookQueue := [] }

/-- A sample bounded step function on numeric work units, used in
witnesses. -/
def stepUpTo2 (n : Nat) : Option Nat := if n < 2 then some (n + 1) else none

/-! ## Theorems -/

/-! ### Helper lemmas -/

theorem isTruthy_of_isElem {c : Child} (h : isElem c = true) : isTruthy c = true := by
  cases c <;> simp_all [isElem, isTruthy]

theorem filterMap_range_succ {α : Type} (f : Nat → Option α) (n : Nat) :
    (List.range (n + 1)).filterMap f
      = (f 0).toList ++ (List.range n).filterMap (fun i => f (i + 1)) := by
  rw [List.range_succ_eq_map]
  cases h : f 0 <;>
    simp [List.filterMap_cons, h, List.filterMap_map, Function.comp_def]

theorem claimNF_nil (olds : List OldFiber) (i : Nat) : claimNF [] olds i = none := by
  simp [claimNF]

theorem claimNF_succ (e : Child) (es : List Child) (o : OldFiber) (os : List OldFiber)
    (i : Nat) : claimNF (e :: es) (o :: os) (i + 1) = claimNF es os i := by
  simp [claimNF]

theorem claimNF_succ_nilr (e : Child) (es : List Child) (i : Nat) :
    claimNF (e :: es) [] (i + 1) = claimNF es [] i := by
  simp [claimNF]

theorem claimNF_zero (e : Child) (es : List Child) (o : OldFiber) (os : List OldFiber) :
    claimNF (e :: es) (o :: os) 0
      = some (if typeOfChild e = o.type then mkUpdateFiber e o else mkPlacementFiber e) := by
  simp [claimNF]

theorem claimNF_zero_nilr (e : Child) (es : List Child) :
    claimNF (e :: es) [] 0 = some (mkPlacementFiber e) := by
  simp [claimNF]

theorem claimDel_nilr (es : List Child) (i : Nat) : claimDel es [] i = none := by
  simp [claimDel]

theorem claimDel_succ (e : Child) (es : List Child) (o : OldFiber) (os : List OldFiber)
    (i : Nat) : claimDel (e :: es) (o :: os) (i + 1) = claimDel es os i := by
  simp [claimDel]

theorem claimDel_succ_nill (o : OldFiber) (os : List OldFiber) (i : Nat) :
    claimDel [] (o :: os) (i + 1) = claimDel [] os i := by
  simp [claimDel]

theorem claimDel_zero (e : Child) (es : List Child) (o : OldFiber) (os : List OldFiber) :
    claimDel (e :: es) (o :: os) 0
      = if typeOfChild e = o.type then none else some (deleteTag o) := by
  simp [claimDel]

theorem claimDel_zero_nill (o : OldFiber) (os : List OldFiber) :
    claimDel [] (o :: os) 0 = some (deleteTag o) := by
  simp [claimDel]

theorem claimOldAfter_nilr (es : List Child) (i : Nat) : claimOldAfter es [] i = none := by
  simp [claimOldAfter]

theorem claimOldAfter_succ (e : Child) (es : List Child) (o : OldFiber)
    (os : List OldFiber) (i : Nat) :
    claimOldAfter (e :: es) (o :: os) (i + 1) = claimOldAfter es os i := by
  simp [claimOldAfter]

theorem claimOldAfter_succ_nill (o : OldFiber) (os : List OldFiber) (i : Nat) :
    claimOldAfter [] (o :: os) (i + 1) = claimOldAfter [] os i := by
  simp [claimOldAfter]

theorem claimOldAfter_zero (e : Child) (es : List Child) (o : OldFiber)
    (os : List OldFiber) :
    claimOldAfter (e :: es) (o :: os) 0
      = some (if typeOfChild e = o.type then o else deleteTag o) := by
  simp [claimOldAfter]

theorem claimOldAfter_zero_nill (o : OldFiber) (os : List OldFiber) :
    claimOldAfter [] (o :: os) 0 = some (deleteTag o) := by
  simp [claimOldAfter]

theorem reconcileRest_eq (olds : List OldFiber) :
    reconcileRest olds
      = (List.replicate olds.length (none : Option NewFiber), olds.map deleteTag,
          olds.map deleteTag) := by
  induction olds with
  | nil => rfl
  | cons o os ih =>
    simp [reconcileRest, reconcileStep, sameType, ih, List.replicate_succ]

theorem reconcileLoop_nil_right (es : List Child)
    (hall : ∀ c ∈ es, isTruthy c = true) :
    reconcileLoop es []
      = (es.map (fun e => some (mkPlacementFiber e)), [], []) := by
  induction es with
  | nil => rfl
  | cons e es ih =>
    have he : isTruthy e = true := hall e (by simp)
    have ih2 := ih (fun c hc => hall c (by simp [hc]))
    simp [reconcileLoop, reconcileStep, sameType, he, ih2]

theorem linkChain_replicate_none (n : Nat) :
    linkChain (List.replicate n none) = [] := by
  cases n <;> simp [linkChain, List.replicate_succ]

theorem linkChain_map_some {α : Type} (f : α → NewFiber) (l : List α) :
    linkChain (l.map (fun x => some (f x))) = l.map f := by
  induction l <;> simp [linkChain, *]

theorem range_filterMap_claimNF_nill (olds : List OldFiber) (n : Nat) :
    (List.range n).filterMap (claimNF [] olds) = [] := by
  rw [List.filterMap_eq_nil_iff]
  intro i _
  exact claimNF_nil olds i

theorem range_filterMap_claimNF_nilr (es : List Child) :
    (List.range es.length).filterMap (claimNF es []) = es.map mkPlacementFiber := by
  induction es with
  | nil => rfl
  | cons e es ih =>
    simp [filterMap_range_succ, claimNF_zero_nilr, claimNF_succ_nilr, ih]

theorem range_filterMap_claimDel_nilr (es : List Child) (n : Nat) :
    (List.range n).filterMap (claimDel es []) = [] := by
  rw [List.filterMap_eq_nil_iff]
  intro i _
  exact claimDel_nilr es i

theorem range_filterMap_claimOldAfter_nilr (es : List Child) (n : Nat) :
    (List.range n).filterMap (claimOldAfter es []) = [] := by
  rw [List.filterMap_eq_nil_iff]
  intro i _
  exact claimOldAfter_nilr es i

theorem range_filterMap_claimDel_nill (olds : List OldFiber) :
    (List.range olds.length).filterMap (claimDel [] olds) = olds.map deleteTag := by
  induction olds with
  | nil => rfl
  | cons o os ih =>
    simp [filterMap_range_succ, claimDel_zero_nill, claimDel_succ_nill, ih]

theorem range_filterMap_claimOldAfter_nill (olds : List OldFiber) :
    (List.range olds.length).filterMap (claimOldAfter [] olds) = olds.map deleteTag := by
  induction olds with
  | nil => rfl
  | cons o os ih =>
    simp [filterMap_range_succ, claimOldAfter_zero_nill, claimOldAfter_succ_nill, ih]

theorem reconcileLoop_claimed (es : List Child) (olds : List OldFiber)
    (hall : ∀ c ∈ es, isTruthy c = true) :
    linkChain (reconcileLoop es olds).1
        = (List.range (max es.length olds.length)).filterMap (claimNF es olds)
    ∧ (reconcileLoop es olds).2.1
        = (List.range (max es.length olds.length)).filterMap (claimDel es olds)
    ∧ (reconcileLoop es olds).2.2
        = (List.range (max es.length olds.length)).filterMap (claimOldAfter es olds) := by
  induction es generalizing olds with
  | nil =>
    refine ⟨?_, ?_, ?_⟩
    · simp [reconcileLoop, reconcileRest_eq, linkChain_replicate_none,
        range_filterMap_claimNF_nill]
    · simp [reconcileLoop, reconcileRest_eq, Nat.zero_max, range_filterMap_claimDel_nill]
    · simp [reconcileLoop, reconcileRest_eq, Nat.zero_max,
        range_filterMap_claimOldAfter_nill]
  | cons e es ih =>
    have he : isTruthy e = true := hall e (by simp)
    have hall2 : ∀ c ∈ es, isTruthy c = true := fun c hc => hall c (by simp [hc])
    cases olds with
    | nil =>
      have htr : ∀ c ∈ e :: es, isTruthy c = true := hall
      have h1 := range_filterMap_claimNF_nilr (e :: es)
      simp only [List.length_cons] at h1
      refine ⟨?_, ?_, ?_⟩
      · simp [reconcileLoop_nil_right _ htr, Nat.max_zero, h1, linkChain,
          linkChain_map_some]
      · simp [reconcileLoop_nil_right _ htr, Nat.max_zero, range_filterMap_claimDel_nilr]
      · simp [reconcileLoop_nil_right _ htr, Nat.max_zero,
          range_filterMap_claimOldAfter_nilr]
    | cons o os =>
      obtain ⟨ih1, ih2, ih3⟩ := ih os hall2
      refine ⟨?_, ?_, ?_⟩
      · simp only [List.length_cons, Nat.succ_max_succ, filterMap_range_succ,
          claimNF_succ, claimNF_zero]
        by_cases hty : typeOfChild e = o.type <;>
          simp [reconcileLoop, reconcileStep, sameType, he, hty, linkChain, ih1]
      · simp only [List.length_cons, Nat.succ_max_succ, filterMap_range_succ,
          claimDel_succ, claimDel_zero]
        by_cases hty : typeOfChild e = o.type <;>
          simp [reconcileLoop, reconcileStep, sameType, he, hty, ih2]
      · simp only [List.length_cons, Nat.succ_max_succ, filterMap_range_succ,
          claimOldAfter_succ, claimOldAfter_zero]
        by_cases hty : typeOfChild e = o.type <;>
          simp [reconcileLoop, reconcileStep, sameType, he, hty, ih3]

theorem reconcileLoop_olds_nil (es : List Child) :
    (reconcileLoop es []).2.1 = [] ∧ (reconcileLoop es []).2.2 = [] := by
  induction es with
  | nil => exact ⟨rfl, rfl⟩
  | cons e es ih => simp [reconcileLoop, reconcileStep, ih]

theorem eraseTag_deleteTag (o : OldFiber) : eraseTag (deleteTag o) = eraseTag o := rfl

theorem oldAfter_eraseTag (es : List Child) (olds : List OldFiber) :
    (reconcileLoop es olds).2.2.map eraseTag = olds.map eraseTag := by
  induction es generalizing olds with
  | nil =>
    simp only [reconcileLoop, reconcileRest_eq, List.map_map]
    have h : eraseTag ∘ deleteTag = eraseTag := funext fun o => rfl
    rw [h]
  | cons e es ih =>
    cases olds with
    | nil =>
      simp [reconcileLoop, reconcileStep, (reconcileLoop_olds_nil es).2]
    | cons o os =>
      have : eraseTag (if sameType (some o) (some e) then o else deleteTag o)
          = eraseTag o := by
        split <;> simp [eraseTag_deleteTag]
      simp [reconcileLoop, reconcileStep, ih, this]

theorem oldAfter_getElem (es : List Child) (olds : List OldFiber) (i : Nat)
    (o : OldFiber) (ho : olds[i]? = some o) :
    ((reconcileLoop es olds).2.2)[i]?
      = some (if sameType (some o) es[i]? then o else deleteTag o) := by
  induction es generalizing olds i with
  | nil =>
    simp only [reconcileLoop, reconcileRest_eq]
    simp [List.getElem?_map, ho, sameType]
  | cons e es ih =>
    cases olds with
    | nil => simp at ho
    | cons o2 os =>
      cases i with
      | zero =>
        simp only [List.getElem?_cons_zero, Option.some_inj] at ho
        subst ho
        simp [reconcileLoop, reconcileStep]
      | succ j =>
        simp only [List.getElem?_cons_succ] at ho
        simp [reconcileLoop, reconcileStep, ih os j ho]

/-- C1: for a WIP fiber with a new child element list and the old child
chain, reconciliation walks both in lock-step by index; same-kind positions
emit an update fiber carrying the new attributes, the old host node and the
alternate link; positions with a new element and no same-kind old fiber emit
a placement fiber with no host node and no alternate; positions with an old
fiber and no same-kind element tag the old fiber deletion and append it to
the pending-deletion list; the loop runs exactly until both sequences are
exhausted. -/
theorem C1_reconcile_lockstep (es : List Child) (olds : List OldFiber)
    (hall : ∀ c ∈ es, isElem c = true) :
    reconcileChildren es olds = reconcileClaimed es olds := by
  obtain ⟨h1, h2, h3⟩ := reconcileLoop_claimed es olds
    (fun c hc => isTruthy_of_isElem (hall c hc))
  simp [reconcileChildren, reconcileClaimed, h1, h2, h3]

/-- Witness for C1_reconcile_lockstep: two new elements against three old
fibers, exercising update, placement and deletion at once. -/
theorem C1_reconcile_lockstep_witness :
    reconcileChildren
        [Child.elemC (.tag "div") [("id", .vstr "a")] [], Child.elemC (.tag "span") [] []]
        [{ type := some (.tag "div"), props := ([], []), dom := some 1, effectTag := none },
          { type := some (.tag "p"), props := ([], []), dom := some 2, effectTag := none },
          { type := some (.tag "b"), props := ([], []), dom := some 3, effectTag := none }]
      = reconcileClaimed
        [Child.elemC (.tag "div") [("id", .vstr "a")] [], Child.elemC (.tag "span") [] []]
        [{ type := some (.tag "div"), props := ([], []), dom := some 1, effectTag := none },
          { type := some (.tag "p"), props := ([], []), dom := some 2, effectTag := none },
          { type := some (.tag "b"), props := ([], []), dom := some 3, effectTag := none }] :=
  C1_reconcile_lockstep _ _ (by decide)

/-- C2 counterexample: reconciling an empty element list against a current
tree child whose effect tag is clear writes the deletion tag into that
current-tree fiber in place, so WIP processing does mutate the current
tree. -/
theorem C2_counterexample_mutates_current :
    ((reconcileChildren []
          [{ type := some (EType.tag "div"), props := ([], []), dom := some 1,
              effectTag := none }]).oldAfter.map OldFiber.effectTag)
        = [some Tag.deletion] ∧
    some Tag.deletion ≠ (none : Option Tag) := by
  constructor
  · simp [reconcileChildren, reconcileLoop, reconcileRest, reconcileStep, sameType,
      deleteTag]
  · simp

/-- C2 (amended): the only in-place change WIP processing makes to fibers of
the current tree is writing the deletion effect tag, and it does so exactly
at positions where no same-type new element exists; every other field of
every current-tree fiber is untouched, and the tree itself is swapped only
at commit. -/
theorem C2_current_tree_mutation_shape (es : List Child) (olds : List OldFiber) :
    (reconcileChildren es olds).oldAfter.map eraseTag = olds.map eraseTag ∧
    ∀ (i : Nat) (o : OldFiber), olds[i]? = some o →
      (reconcileChildren es olds).oldAfter[i]?
        = some (if sameType (some o) es[i]? then o else deleteTag o) := by
  refine ⟨oldAfter_eraseTag es olds, ?_⟩
  intro i o ho
  exact oldAfter_getElem es olds i o ho

/-- Witness for C2_current_tree_mutation_shape at a concrete input. -/
theorem C2_current_tree_mutation_shape_witness :
    (reconcileChildren [Child.elemC (.tag "div") [] []] [oldDiv4]).oldAfter[0]?
      = some oldDiv4 := by
  have h := (C2_current_tree_mutation_shape [Child.elemC (.tag "div") [] []]
      [oldDiv4]).2 0 oldDiv4 rfl
  simpa [sameType, isTruthy, typeOfChild, oldDiv4] using h

/-- C9 counterexample: createElement keeps a null child as-is, because typeof
null is object in JS; null is not an Element, so the claim that every
non-Element child is wrapped into a synthetic text Element fails. -/
theorem C9_counterexample_null_child :
    childrenOf (createElement (.tag "div") [] [Child.nullC]) = [Child.nullC] ∧
    isElem Child.nullC = false :=
  ⟨rfl, rfl⟩

/-- C9 (amended): createElement returns an element of the given kind whose
child list is the one-level-flattened children, in which every child of
non-object runtime type is wrapped into a synthetic text element (an Element)
carrying the literal under nodeValue, while object-typed children (Elements,
but also null and unflattened nested arrays) are kept unchanged; no
validation of the kind is performed. -/
theorem C9_flatten_and_wrap (t : EType) (attrs : Attrs) (cs : List Child) :
    typeOfChild (createElement t attrs cs) = some t ∧
    (childrenOf (createElement t attrs cs)).length = (jsFlat cs).length ∧
    ∀ (i : Nat) (c : Child), (jsFlat cs)[i]? = some c →
      (childrenOf (createElement t attrs cs))[i]? =
        some (if typeofObject c then c else createTextElement c) ∧
      (typeofObject c = false →
        isElem ((childrenOf (createElement t attrs cs))[i]?.getD Child.nullC) = true) := by
  refine ⟨rfl, by simp [createElement, childrenOf], ?_⟩
  intro i c hc
  constructor
  · simp [createElement, childrenOf, List.getElem?_map, hc]
  · intro hobj
    simp [createElement, childrenOf, List.getElem?_map, hc, hobj, createTextElement, isElem]

/-- Witness for C9_flatten_and_wrap at a concrete call. -/
theorem C9_flatten_and_wrap_witness :
    (childrenOf (createElement (.tag "p") [] [Child.strC "hi", Child.arrC [Child.numC 3]]))[0]? =
      some (createTextElement (Child.strC "hi")) ∧
    (childrenOf (createElement (.tag "p") [] [Child.strC "hi", Child.arrC [Child.numC 3]]))[1]? =
      some (createTextElement (Child.numC 3)) := by
  have h := C9_flatten_and_wrap (.tag "p") [] [Child.strC "hi", Child.arrC [Child.numC 3]]
  exact ⟨(h.2.2 0 (Child.strC "hi") rfl).1, (h.2.2 1 (Child.numC 3) rfl).1⟩

theorem hasKey_of_mem_keys {l : Attrs} {k : String} (h : k ∈ keys l) :
    hasKey l k = true := by
  induction l with
  | nil => simp [keys] at h
  | cons a l ih =>
    simp only [keys, List.map_cons, List.mem_cons] at h
    rcases h with h | h
    · simp [hasKey, List.lookup, h]
    · by_cases hk : k == a.1
      · simp [hasKey, List.lookup, hk]
      · have := ih (by simpa [keys] using h)
        simp [hasKey, List.lookup, hk] at this ⊢
        exact this

theorem updateDom_self (p : Attrs) : updateDom p p = [] := by
  have h1 : ((keys p).filter isEvent).filter
      (fun k => !(hasKey p k) || isNewKey p p k) = [] := by
    rw [List.filter_eq_nil_iff]
    intro k hk
    have hk2 : k ∈ keys p := (List.mem_filter.mp hk).1
    simp [hasKey_of_mem_keys hk2, isNewKey]
  have h2 : ((keys p).filter isProperty).filter (isGoneKey p) = [] := by
    rw [List.filter_eq_nil_iff]
    intro k hk
    have hk2 : k ∈ keys p := (List.mem_filter.mp hk).1
    simp [isGoneKey, hasKey_of_mem_keys hk2]
  have h3 : ((keys p).filter isProperty).filter (isNewKey p p) = [] := by
    rw [List.filter_eq_nil_iff]
    intro k _
    simp [isNewKey]
  have h4 : ((keys p).filter isEvent).filter (isNewKey p p) = [] := by
    rw [List.filter_eq_nil_iff]
    intro k _
    simp [isNewKey]
  simp [updateDom, h1, h2, h3, h4]

/-- C3 counterexample: reconciling the same single div element a second time
emits an UPDATE effect on the reused fiber, so the claim that no placement,
update or deletion effects are emitted on the second reconciliation is
false. -/
theorem C3_counterexample_update_emitted :
    ((reconcileChildren [Child.elemC (.tag "div") [] []]
        [oldDiv4]).childChain.map (fun f => f.effectTag)) = [Tag.update] := by
  simp [reconcileChildren, reconcileLoop, reconcileRest, reconcileStep, sameType,
    isTruthy, typeOfChild, oldDiv4, linkChain, mkUpdateFiber]

/-- C3 (amended): recommitting the same element tree produces no deletion
and no placement effects; every emitted fiber is an update whose attribute
diff against its alternate is empty, so the commit phase issues zero host
mutations. -/
theorem C3_recommit_no_host_mutations (es : List Child) (olds : List OldFiber)
    (hlen : olds.length = es.length)
    (hall : ∀ c ∈ es, isElem c = true)
    (hmatch : ∀ (i : Nat) (e : Child) (o : OldFiber), es[i]? = some e →
        olds[i]? = some o → o.type = typeOfChild e ∧ o.props = (attrsOf e, childrenOf e)) :
    (reconcileChildren es olds).deletions = [] ∧
    (∀ f ∈ (reconcileChildren es olds).childChain, f.effectTag = Tag.update) ∧
    (∀ f ∈ (reconcileChildren es olds).childChain, ∃ a cs alt,
        f.props = some (a, cs) ∧ f.alternate = some alt ∧
        updateDom alt.props.1 a = []) := by
  obtain ⟨h1, h2, h3⟩ := reconcileLoop_claimed es olds
    (fun c hc => isTruthy_of_isElem (hall c hc))
  have hmax : max es.length olds.length = es.length := by
    rw [hlen, Nat.max_self]
  have hchain : (reconcileChildren es olds).childChain
      = (List.range es.length).filterMap (claimNF es olds) := by
    simpa [reconcileChildren, hmax] using h1
  have hdel : (reconcileChildren es olds).deletions
      = (List.range es.length).filterMap (claimDel es olds) := by
    simpa [reconcileChildren, hmax] using h2
  have hupd : ∀ (i : Nat) (e : Child) (o : OldFiber), es[i]? = some e →
      olds[i]? = some o →
      claimNF es olds i = some (mkUpdateFiber e o) ∧ claimDel es olds i = none := by
    intro i e o he ho
    obtain ⟨hty, _⟩ := hmatch i e o he ho
    constructor
    · simp [claimNF, he, ho, hty]
    · simp [claimDel, he, ho, hty]
  refine ⟨?_, ?_, ?_⟩
  · rw [hdel, List.filterMap_eq_nil_iff]
    intro i hi
    have hi2 : i < es.length := by simpa using hi
    have hi3 : i < olds.length := by rw [hlen]; exact hi2
    have he := List.getElem?_eq_getElem hi2
    have ho := List.getElem?_eq_getElem hi3
    exact (hupd i _ _ he ho).2
  · intro f hf
    rw [hchain] at hf
    obtain ⟨i, hi, hcl⟩ := List.mem_filterMap.mp hf
    have hi2 : i < es.length := by simpa using hi
    have hi3 : i < olds.length := by rw [hlen]; exact hi2
    have he := List.getElem?_eq_getElem hi2
    have ho := List.getElem?_eq_getElem hi3
    rw [(hupd i _ _ he ho).1] at hcl
    cases hcl
    rfl
  · intro f hf
    rw [hchain] at hf
    obtain ⟨i, hi, hcl⟩ := List.mem_filterMap.mp hf
    have hi2 : i < es.length := by simpa using hi
    have hi3 : i < olds.length := by rw [hlen]; exact hi2
    have he := List.getElem?_eq_getElem hi2
    have ho := List.getElem?_eq_getElem hi3
    rw [(hupd i _ _ he ho).1] at hcl
    obtain ⟨_, hpr⟩ := hmatch i es[i] olds[i] he ho
    have helem : isElem es[i] = true := hall es[i] (List.getElem_mem hi2)
    cases hel : es[i] with
    | elemC t a cs =>
      refine ⟨a, cs, olds[i], ?_, ?_, ?_⟩
      · cases hcl
        simp [mkUpdateFiber, elemProps, hel]
      · cases hcl
        simp [mkUpdateFiber]
      · have : olds[i].props = (a, cs) := by
          rw [hpr, hel]
          simp [attrsOf, childrenOf]
        rw [this]
        exact updateDom_self a
    | arrC xs => rw [hel] at helem; simp [isElem] at helem
    | strC s => rw [hel] at helem; simp [isElem] at helem
    | numC n => rw [hel] at helem; simp [isElem] at helem
    | boolC b => rw [hel] at helem; simp [isElem] at helem
    | fnC n => rw [hel] at helem; simp [isElem] at helem
    | nullC => rw [hel] at helem; simp [isElem] at helem
    | undefC => rw [hel] at helem; simp [isElem] at helem

/-- Witness for C3_recommit_no_host_mutations: recommitting one div yields
no deletions. -/
theorem C3_recommit_no_host_mutations_witness :
    (reconcileChildren [Child.elemC (.tag "div") [] []] [oldDiv4]).deletions = [] :=
  (C3_recommit_no_host_mutations [Child.elemC (.tag "div") [] []] [oldDiv4]
    rfl (by decide)
    (by
      intro i e o he ho
      match i with
      | 0 =>
        simp only [List.getElem?_cons_zero, Option.some_inj] at he ho
        subst he
        subst ho
        exact ⟨rfl, rfl⟩
      | Nat.succ j => simp at he)).1


theorem commitDeletion_shape : ∀ f : FiberT,
    (commitDeletion f).length ≤ 1 ∧ (∀ d ∈ commitDeletion f, d ∈ nearestHosts f)
  | .node (some d) cs => by simp [commitDeletion, nearestHosts]
  | .node none [] => by simp [commitDeletion]
  | .node none (c :: cs) => by
    obtain ⟨h1, h2⟩ := commitDeletion_shape c
    refine ⟨?_, ?_⟩
    · simpa [commitDeletion] using h1
    · intro d hd
      have hd2 : d ∈ commitDeletion c := by simpa [commitDeletion] using hd
      have hmem := h2 d hd2
      simp only [nearestHosts, nearestHostsList, List.mem_append]
      exact Or.inl hmem

/-- C4 counterexample: deleting a component-only fiber with two host
children removes only the first host node; the second nearest host
descendant is left in place. -/
theorem C4_counterexample_multiple_hosts :
    commitDeletion (.node none [.node (some 1) [], .node (some 2) []]) = [1]
    ∧ nearestHosts (.node none [.node (some 1) [], .node (some 2) []]) = [1, 2]
    ∧ ([1] : List Nat) ≠ [1, 2] := by
  refine ⟨?_, ?_, by decide⟩
  · simp [commitDeletion]
  · simp [nearestHosts, nearestHostsList]

/-- C4 (amended): commit-phase deletion walks down only through first-child
links of fibers without a host node; it removes at most one host node, that
node is one of the nearest host descendants, a fiber owning a host node has
exactly that node removed, and a component-only fiber delegates to its first
child alone. -/
theorem C4_deletion_first_child_chain (f : FiberT) :
    (commitDeletion f).length ≤ 1
    ∧ (∀ d ∈ commitDeletion f, d ∈ nearestHosts f)
    ∧ (∀ (d : Nat) (cs : List FiberT), f = .node (some d) cs → commitDeletion f = [d])
    ∧ (∀ (c : FiberT) (cs : List FiberT), f = .node none (c :: cs) →
        commitDeletion f = commitDeletion c) := by
  obtain ⟨h1, h2⟩ := commitDeletion_shape f
  refine ⟨h1, h2, ?_, ?_⟩
  · intro d cs hf
    subst hf
    simp [commitDeletion]
  · intro c cs hf
    subst hf
    simp [commitDeletion]

/-- Witness for C4_deletion_first_child_chain on a concrete component
fiber. -/
theorem C4_deletion_first_child_chain_witness :
    commitDeletion (FiberT.node none [FiberT.node (some 5) [], FiberT.node (some 6) []])
      = commitDeletion (FiberT.node (some 5) []) :=
  (C4_deletion_first_child_chain _).2.2.2 _ _ rfl

theorem pushAll_eq_append {V : Type} (acts q : List (JSAction V)) :
    pushAll q acts = q ++ acts := by
  induction acts generalizing q with
  | nil => simp [pushAll]
  | cons a rest ih => simp [pushAll, ih]

/-- C5: after a sequence of setter calls enqueues the updates in call order,
the value the hook takes on the next render is the left fold of the queued
updates over the previous hook value; the initial value is used only when no
previous hook exists. -/
theorem C5_state_queue_fold {V : Type} (prev init : V) (acts : List (JSAction V)) :
    useStateValue (some ⟨prev, pushAll [] acts⟩) init = acts.foldl applyAction prev
    ∧ useStateValue (none : Option (StateHook V)) init = init := by
  constructor
  · simp [useStateValue, pushAll_eq_append]
  · rfl

theorem depsSomeDiffer_iff {D : Type} [DecidableEq D] (p : List D) :
    ∀ (n : List D) (j : Nat),
      depsSomeDiffer p n j = true
        ↔ ∃ (k : Nat) (d : D), n[k]? = some d ∧ p[k + j]? ≠ some d := by
  intro n
  induction n with
  | nil =>
    intro j
    simp [depsSomeDiffer]
  | cons d rest ih =>
    intro j
    simp only [depsSomeDiffer, Bool.or_eq_true, decide_eq_true_eq, ih (j + 1)]
    constructor
    · rintro (h | ⟨k, d2, hk, hp⟩)
      · exact ⟨0, d, by simp, by simpa using h⟩
      · refine ⟨k + 1, d2, by simpa using hk, ?_⟩
        have harith : k + 1 + j = k + (j + 1) := by omega
        rw [harith]
        exact hp
    · rintro ⟨k, d2, hk, hp⟩
      cases k with
      | zero =>
        simp only [List.getElem?_cons_zero, Option.some_inj] at hk
        subst hk
        exact Or.inl (by simpa using hp)
      | succ k2 =>
        right
        refine ⟨k2, d2, by simpa using hk, ?_⟩
        have harith : k2 + (j + 1) = k2 + 1 + j := by omega
        rw [harith]
        exact hp

/-- C6 counterexample: when the previous render recorded a dependency list
but the new render passes none, the source reports changed, yet none of the
conditions the claim lists holds, so the claimed iff fails. -/
theorem C6_counterexample_missing_next_deps :
    hasDepsChanged (some [(0 : Nat)]) none = true
    ∧ ¬ DepsChangedClaimOnly (some [(0 : Nat)]) (none : Option (List Nat)) := by
  refine ⟨rfl, ?_⟩
  rintro (h | ⟨p, n, hp, hn, _⟩)
  · exact Option.noConfusion h
  · exact Option.noConfusion hn

/-- C6 (amended): hasChanged is true iff no previous dependency snapshot
exists, or no new dependency list is provided, or the lengths differ, or
some element differs by identity at the same index; during commit an
unchanged effect runs neither cleanup nor callback and is left untouched,
while a changed effect runs its previous cleanup (when one exists) strictly
before its callback and stores the callback result as the new cleanup. -/
theorem C6_deps_gate_effects {D : Type} [DecidableEq D]
    (prev next : Option (List D)) (callRet : Nat → Option Nat) (h : EffectHook D) :
    (hasDepsChanged prev next = true ↔ DepsChangedAmended prev next)
    ∧ (h.hasChanged = false → runEffectHook callRet h = ([], h))
    ∧ (h.hasChanged = true → ∀ (c cb : Nat), h.cancel = some c → h.callback = some cb →
        (runEffectHook callRet h).1 = [EffEvent.cleanupRun c, EffEvent.callbackRun cb]
        ∧ (runEffectHook callRet h).2.cancel = callRet cb)
    ∧ (h.hasChanged = true → ∀ cb : Nat, h.cancel = none → h.callback = some cb →
        (runEffectHook callRet h).1 = [EffEvent.callbackRun cb]
        ∧ (runEffectHook callRet h).2.cancel = callRet cb) := by
  refine ⟨?_, ?_, ?_, ?_⟩
  · cases prev with
    | none => simp [hasDepsChanged, DepsChangedAmended]
    | some p =>
      cases next with
      | none => simp [hasDepsChanged, DepsChangedAmended]
      | some n =>
        simp only [hasDepsChanged, DepsChangedAmended]
        by_cases hl : p.length = n.length
        · simp [hl, depsSomeDiffer_iff]
        · simp [hl]
  · intro hch
    simp [runEffectHook, hch]
  · intro hch c cb hc hcb
    simp [runEffectHook, hch, hc, hcb]
  · intro hch cb hc hcb
    simp [runEffectHook, hch, hc, hcb]

/-- Witness for C6_deps_gate_effects: a changed effect with a stored cleanup
runs the cleanup before the callback and stores the new handle. -/
theorem C6_deps_gate_effects_witness :
    (runEffectHook (fun _ => some 9)
        { callback := some 3, deps := some [(2 : Nat)], cancel := some 7,
          hasChanged := true }).1
      = [EffEvent.cleanupRun 7, EffEvent.callbackRun 3] := by
  have h := (C6_deps_gate_effects (some [(1 : Nat)]) (some [(2 : Nat)])
      (fun _ => some 9)
      { callback := some 3, deps := some [(2 : Nat)], cancel := some 7,
        hasChanged := true }).2.2.1 rfl 7 3 rfl rfl
  exact h.1


theorem workLoopAux_chain {F : Type} (step : F → Option F) :
    ∀ (ys : List Bool) (u : Option F),
      (workLoopAux step u ys).1 = chainList step (workLoopAux step u ys).1.length u
      ∧ (workLoopAux step u ys).2 = iterStep step (workLoopAux step u ys).1.length u := by
  intro ys
  induction ys with
  | nil =>
    intro u
    cases u <;> simp [workLoopAux, chainList, iterStep]
  | cons y ys ih =>
    intro u
    cases u with
    | none => simp [workLoopAux, chainList, iterStep]
    | some x =>
      by_cases hy : y = true
      · subst hy
        simp [workLoopAux, chainList, iterStep, Option.bind]
      · have hy2 : y = false := by simpa using hy
        subst hy2
        obtain ⟨ih1, ih2⟩ := ih (step x)
        simp only [workLoopAux, if_neg Bool.false_ne_true]
        constructor
        · simp only [List.length_cons, chainList]
          rw [← ih1]
        · simp only [List.length_cons, iterStep, Option.bind]
          rw [← ih2]

theorem chainList_append {F : Type} (step : F → Option F) :
    ∀ (m n : Nat) (u : Option F), (chainList step m u).length = m →
      chainList step (m + n) u
        = chainList step m u ++ chainList step n (iterStep step m u) := by
  intro m
  induction m with
  | zero =>
    intro n u _
    simp [chainList, iterStep]
  | succ m2 ih =>
    intro n u h
    cases u with
    | none => simp [chainList] at h
    | some x =>
      have h2 : (chainList step m2 (step x)).length = m2 := by
        simpa [chainList] using h
      have harith : m2 + 1 + n = (m2 + n) + 1 := by omega
      rw [harith]
      simp only [chainList, List.cons_append]
      rw [ih n (step x) h2]
      simp [iterStep, Option.bind]

theorem workLoopAux_length_le {F : Type} (step : F → Option F) :
    ∀ (ys : List Bool) (u : Option F), (workLoopAux step u ys).1.length ≤ ys.length := by
  intro ys
  induction ys with
  | nil =>
    intro u
    cases u <;> simp [workLoopAux]
  | cons y ys ih =>
    intro u
    cases u with
    | none => simp [workLoopAux]
    | some x =>
      by_cases hy : y = true
      · subst hy
        simp only [workLoopAux, if_true, List.length_cons, List.length_nil]
        omega
      · have hy2 : y = false := by simpa using hy
        subst hy2
        simp only [workLoopAux, if_neg Bool.false_ne_true, List.length_cons]
        exact Nat.succ_le_succ (ih (step x))

/-- C7: the while loop processes exactly one unit per iteration, reading the
yield signal once after each unit; the processed units form a prefix of the
uninterrupted step chain and the saved next unit is exactly the chain
continuation, so suspending and resuming processes the combined chain prefix
with no unit lost or repeated; the enclosing callback commits, swapping the
WIP root into the current root, exactly when the next unit became empty
while a WIP root exists, and otherwise leaves the roots untouched. -/
theorem C7_work_loop_contract {F : Type} (step : F → Option F) (ys ys2 : List Bool)
    (s : SchedState F) :
    ((workLoopAux step s.nextUnit ys).1
        = chainList step (workLoopAux step s.nextUnit ys).1.length s.nextUnit)
    ∧ ((workLoopAux step s.nextUnit ys).2
        = iterStep step (workLoopAux step s.nextUnit ys).1.length s.nextUnit)
    ∧ ((workLoopAux step s.nextUnit ys).1
          ++ (workLoopAux step (workLoopAux step s.nextUnit ys).2 ys2).1
        = chainList step
            ((workLoopAux step s.nextUnit ys).1.length
              + (workLoopAux step (workLoopAux step s.nextUnit ys).2 ys2).1.length)
            s.nextUnit)
    ∧ ((workLoop step ys s).2.2
        = ((workLoopAux step s.nextUnit ys).2.isNone && s.wipRoot.isSome))
    ∧ ((workLoop step ys s).1.nextUnit = (workLoopAux step s.nextUnit ys).2)
    ∧ ((workLoop step ys s).1.wipRoot
        = if (workLoopAux step s.nextUnit ys).2.isNone && s.wipRoot.isSome then none
          else s.wipRoot)
    ∧ ((workLoop step ys s).1.currentRoot
        = if (workLoopAux step s.nextUnit ys).2.isNone && s.wipRoot.isSome
          then s.wipRoot else s.currentRoot)
    ∧ ((workLoop step ys s).2.1 = (workLoopAux step s.nextUnit ys).1)
    ∧ ((workLoopAux step s.nextUnit ys).1.length ≤ ys.length) := by
  obtain ⟨h1, h2⟩ := workLoopAux_chain step ys s.nextUnit
  obtain ⟨g1, g2⟩ := workLoopAux_chain step ys2 (workLoopAux step s.nextUnit ys).2
  refine ⟨h1, h2, ?_, ?_, ?_, ?_, ?_, ?_, workLoopAux_length_le step ys s.nextUnit⟩
  · have hlen : (chainList step (workLoopAux step s.nextUnit ys).1.length
        s.nextUnit).length = (workLoopAux step s.nextUnit ys).1.length := by
      rw [← h1]
    calc (workLoopAux step s.nextUnit ys).1
          ++ (workLoopAux step (workLoopAux step s.nextUnit ys).2 ys2).1
        = chainList step (workLoopAux step s.nextUnit ys).1.length s.nextUnit
          ++ chainList step
              (workLoopAux step (workLoopAux step s.nextUnit ys).2 ys2).1.length
              (iterStep step (workLoopAux step s.nextUnit ys).1.length s.nextUnit) := by
          rw [← h1]
          nth_rewrite 1 [g1]
          rw [h2]
      _ = chainList step
            ((workLoopAux step s.nextUnit ys).1.length
              + (workLoopAux step (workLoopAux step s.nextUnit ys).2 ys2).1.length)
            s.nextUnit := by
          rw [chainList_append step _ _ _ hlen]
  · simp only [workLoop]
    split
    · rename_i hcond
      exact hcond.symm
    · rename_i hcond
      simp only [Bool.not_eq_true] at hcond
      exact hcond.symm
  · simp only [workLoop]
    split <;> simp [commitRootSwap]
  · simp only [workLoop]
    split
    · rename_i hcond
      simp [commitRootSwap, hcond]
    · rename_i hcond
      simp only [Bool.not_eq_true] at hcond
      simp [hcond]
  · simp only [workLoop]
    split
    · rename_i hcond
      simp [commitRootSwap, hcond]
    · rename_i hcond
      simp only [Bool.not_eq_true] at hcond
      simp [hcond]
  · simp only [workLoop]
    split <;> simp

/-- C8: each setter call appends its update to the hook queue and, when a
committed root exists, schedules a fresh render: a new WIP root aliasing the
committed root dom and props and linked to it via alternate, the next unit
pointed at that WIP root, and the pending-deletion list reset; a second
setter call before the next render only grows the same queue, leaving the
scheduled render identical. -/
theorem C8_setState_schedules {V : Type} (a b : JSAction V) (s : EngineState V)
    (c : RootFiber) (hc : s.currentRoot = some c) :
    (setState a s).hookQueue = s.hookQueue ++ [a]
    ∧ (setState a s).wipRoot
        = some { dom := c.dom, props := c.props, alternate := some c }
    ∧ (setState a s).nextUnit = (setState a s).wipRoot
    ∧ (setState a s).deletions = []
    ∧ (setState a s).currentRoot = s.currentRoot
    ∧ (setState b (setState a s)).hookQueue = s.hookQueue ++ [a, b]
    ∧ (setState b (setState a s)).wipRoot = (setState a s).wipRoot
    ∧ (setState b (setState a s)).nextUnit = (setState a s).nextUnit
    ∧ (setState b (setState a s)).deletions = (setState a s).deletions := by
  simp [setState, hc]

/-- Witness for C8_setState_schedules on a concrete engine state. -/
theorem C8_setState_schedules_witness :
    (setState (JSAction.valAct 5) engine0).hookQueue = [JSAction.valAct 5]
    ∧ (setState (JSAction.valAct 5) engine0).deletions = [] := by
  have h := C8_setState_schedules (JSAction.valAct 5) (JSAction.valAct 6) engine0
    { dom := some 0, props := ([], []) } rfl
  exact ⟨h.1, h.2.2.2.1⟩

theorem chain_length_all_truthy :
    ∀ (es : List Child) (olds : List OldFiber), (∀ c ∈ es, isTruthy c = true) →
      (linkChain (reconcileLoop es olds).1).length = es.length := by
  intro es
  induction es with
  | nil =>
    intro olds _
    simp [reconcileLoop, reconcileRest_eq, linkChain_replicate_none]
  | cons e es ih =>
    intro olds h
    have he : isTruthy e = true := h e (by simp)
    have h2 := ih olds.tail (fun c hc => h c (by simp [hc]))
    cases olds with
    | nil =>
      simp only [reconcileLoop, reconcileStep, sameType, he, if_true]
      simp only [List.tail_nil] at h2
      simp [linkChain, h2, he]
    | cons o os =>
      simp only [List.tail_cons] at h2
      by_cases hty : typeOfChild e = o.type
      · simp only [reconcileLoop, List.head?_cons, List.tail_cons]
        simp [reconcileStep, sameType, he, hty, linkChain, h2]
      · simp only [reconcileLoop, List.head?_cons, List.tail_cons]
        simp [reconcileStep, sameType, he, hty, linkChain, h2]

theorem chain_getElem_props :
    ∀ (es : List Child) (olds : List OldFiber), (∀ c ∈ es, isTruthy c = true) →
      ∀ (i : Nat) (e : Child), es[i]? = some e →
        ∃ f, (linkChain (reconcileLoop es olds).1)[i]? = some f
          ∧ f.props = elemProps e := by
  intro es
  induction es with
  | nil =>
    intro olds _ i e he
    simp at he
  | cons e2 es ih =>
    intro olds h i e he
    have he2 : isTruthy e2 = true := h e2 (by simp)
    have htail : ∀ c ∈ es, isTruthy c = true := fun c hc => h c (by simp [hc])
    cases i with
    | zero =>
      simp only [List.getElem?_cons_zero, Option.some_inj] at he
      subst he
      cases olds with
      | nil =>
        refine ⟨mkPlacementFiber e2, ?_, rfl⟩
        simp [reconcileLoop, reconcileStep, sameType, he2, linkChain]
      | cons o os =>
        by_cases hty : typeOfChild e2 = o.type
        · refine ⟨mkUpdateFiber e2 o, ?_, rfl⟩
          simp only [reconcileLoop, List.head?_cons, List.tail_cons]
          simp [reconcileStep, sameType, he2, hty, linkChain]
        · refine ⟨mkPlacementFiber e2, ?_, rfl⟩
          simp only [reconcileLoop, List.head?_cons, List.tail_cons]
          simp [reconcileStep, sameType, he2, hty, linkChain]
    | succ j =>
      simp only [List.getElem?_cons_succ] at he
      obtain ⟨f, hf, hp⟩ := ih olds.tail htail j e he
      refine ⟨f, ?_, hp⟩
      cases olds with
      | nil =>
        simp only [List.tail_nil] at hf
        simp only [reconcileLoop, reconcileStep, sameType, he2, if_true]
        simpa [linkChain, he2] using hf
      | cons o os =>
        simp only [List.tail_cons] at hf
        by_cases hty : typeOfChild e2 = o.type
        · simp only [reconcileLoop, List.head?_cons, List.tail_cons]
          simp only [reconcileStep, sameType, he2, hty]
          simpa [linkChain] using hf
        · simp only [reconcileLoop, List.head?_cons, List.tail_cons]
          simp only [reconcileStep, sameType, he2, hty]
          simpa [linkChain] using hf

/-- C10: a function component return value is wrapped in a one-element list
and flattened one level before reconciling, so an array return reconciles
its entries one child fiber per element in order, and a single element
return produces exactly one child fiber. -/
theorem C10_component_children (out : Child) (olds : List OldFiber) :
    (∀ xs, out = Child.arrC xs → componentChildren out = xs)
    ∧ (isElem out = true → componentChildren out = [out])
    ∧ (∀ xs, out = Child.arrC xs → (∀ c ∈ xs, isElem c = true) →
        (reconcileChildren xs olds).childChain.length = xs.length
        ∧ (∀ (i : Nat) (e : Child), xs[i]? = some e → ∃ f,
            (reconcileChildren xs olds).childChain[i]? = some f
              ∧ f.props = elemProps e))
    ∧ (isElem out = true →
        (reconcileChildren (componentChildren out) olds).childChain.length = 1) := by
  have hsingle : isElem out = true → componentChildren out = [out] := by
    intro hel
    cases out <;> simp_all [componentChildren, jsFlat, isElem]
  refine ⟨?_, hsingle, ?_, ?_⟩
  · intro xs hxs
    subst hxs
    simp [componentChildren, jsFlat]
  · intro xs hxs hall
    constructor
    · simpa [reconcileChildren] using
        chain_length_all_truthy xs olds (fun c hc => isTruthy_of_isElem (hall c hc))
    · intro i e he
      simpa [reconcileChildren] using
        chain_getElem_props xs olds (fun c hc => isTruthy_of_isElem (hall c hc)) i e he
  · intro hel
    rw [hsingle hel]
    have h1 : ∀ c ∈ [out], isTruthy c = true := by
      intro c hc
      simp only [List.mem_singleton] at hc
      subst hc
      exact isTruthy_of_isElem hel
    simpa [reconcileChildren] using chain_length_all_truthy [out] olds h1

/-- Witness for C10_component_children: a component returning two elements
yields two child fibers. -/
theorem C10_component_children_witness :
    (reconcileChildren [Child.elemC (.tag "li") [] [], Child.elemC (.tag "li") [] []]
        []).childChain.length = 2 :=
  ((C10_component_children
      (Child.arrC [Child.elemC (.tag "li") [] [], Child.elemC (.tag "li") [] []])
      []).2.2.1 _ rfl (by decide)).1


end MyReact
